import Mathlib

/-!
Shallow embedding of src/app.py (MDF Plans Splitter) together with theorems
checking the specification's claims.

The program extracts header fields and line-item records from a PDF.  The
external engines (pdfplumber, camelot) are out of scope per the spec: a
document is modelled by the text of its first two pages plus the list of
detected tables (each table an ordered grid of string cells).

Strings are lists of characters.  Python whitespace handling is modelled for
the ASCII range plus U+00A0 (the only characters the code treats specially).
Python's int(float(num)) on an all-zero-fraction numeral is modelled with
exact integer arithmetic; float rounding above 2 to the 53rd is out of scope.
-/

/-- ASCII whitespace, as stripped by Python str.strip and matched by a
whitespace class in the patterns. -/
def pySpace (c : Char) : Bool :=
  c == ' ' || c == '\t' || c == '\n' || c == '\r' || c == '\x0b' || c == '\x0c'

/-- Python str.strip() on a character list. -/
def stripChars (l : List Char) : List Char :=
  ((l.dropWhile pySpace).reverse.dropWhile pySpace).reverse

/-- Python str.strip() on a string. -/
def pyStrip (s : String) : String := String.mk (stripChars s.data)

/-- Auxiliary for whitespace-run collapsing: the flag records whether the
previous character was whitespace (its single replacement space was already
emitted). -/
def collapseWsAux : Bool → List Char → List Char
  | _, [] => []
  | inRun, c :: rest =>
    if pySpace c then
      if inRun then collapseWsAux true rest else ' ' :: collapseWsAux true rest
    else c :: collapseWsAux false rest

/-- re.sub of one-or-more whitespace with a single space (app.py lines 43, 72). -/
def collapseWs (l : List Char) : List Char := collapseWsAux false l

/-- app.py normalize_header: collapse whitespace, strip, lowercase. -/
def normalize_header (s : String) : String :=
  String.mk ((stripChars (collapseWs s.data)).map Char.toLower)

/-- app.py truncate with the default length 100 (the only length used):
take the first 100 characters, then strip. -/
def truncate (s : String) : String := String.mk (stripChars (s.data.take 100))

/-- Python " ".join. -/
def joinSpace : List String → String
  | [] => ""
  | [s] => s
  | s :: rest => s ++ " " ++ joinSpace rest

/-- Python lowercasing of a string (ASCII). -/
def lowerS (s : String) : String := String.mk (s.data.map Char.toLower)

/-- Python str.startswith. -/
def startsWithS (s pre : String) : Bool := pre.data.isPrefixOf s.data

/-- Contiguous-substring test on character lists (Python in operator on
strings). -/
def isSubL (needle : List Char) : List Char → Bool
  | [] => needle.isEmpty
  | c :: rest => needle.isPrefixOf (c :: rest) || isSubL needle rest

/-- Case-insensitive substring test (re.search of a plain-text pattern with
IGNORECASE). -/
def ciContains (needle hay : String) : Bool :=
  isSubL (needle.data.map Char.toLower) (hay.data.map Char.toLower)

/-- Regex word character (for word boundaries): letters, digits, underscore. -/
def isWordChar (c : Char) : Bool := c.isAlphanum || c == '_'

/-! ## clean_amount (app.py lines 80-100) -/

/-- Does a case-insensitive "USD" with word boundaries on both sides start
here?  prev is the original character before this position. -/
def usdHere (prev : Option Char) (a b d : Char) (rest : List Char) : Bool :=
  (a == 'u' || a == 'U') && (b == 's' || b == 'S') && (d == 'd' || d == 'D')
    && (match prev with | some p => !(isWordChar p) | none => true)
    && (match rest with | e :: _ => !(isWordChar e) | [] => true)

/-- re.sub of a word-bounded case-insensitive USD with the empty string:
left-to-right scan over the original text, non-overlapping matches removed. -/
def removeUSD : Option Char → List Char → List Char
  | _, [] => []
  | prev, a :: b :: d :: rest =>
    if usdHere prev a b d rest then removeUSD (some d) rest
    else a :: removeUSD (some a) (b :: d :: rest)
  | _, a :: rest => a :: removeUSD (some a) rest

/-- Replacement of a non-breaking space by a regular space. -/
def nbspFix (c : Char) : Char := if c == '\xA0' then ' ' else c

/-- Characters surviving the removal of the dollar sign and commas. -/
def keepCh (c : Char) : Bool := !(c == '$' || c == ',')

/-- Parenthesized-negative detection: if the string starts with an opening and
ends with a closing parenthesis, record the negative flag and strip them plus
surrounding whitespace (app.py lines 86-89). -/
def parenNeg (l : List Char) : Bool × List Char :=
  if l.head? == some '(' && l.getLast? == some ')' then
    (true, stripChars ((l.drop 1).dropLast))
  else (false, l)

/-- The optional fraction of the number pattern: a dot followed by one or more
digits, greedily; empty when absent. -/
def fracOf (l : List Char) : List Char :=
  match l with
  | c :: rest =>
    if c == '.' then
      let fs := rest.takeWhile Char.isDigit
      if fs.isEmpty then [] else '.' :: fs
    else []
  | [] => []

/-- Match of the signed-decimal pattern at this position: optional minus, one
or more digits, optional dot-digits; none when the position cannot start a
match. -/
def numAt (l : List Char) : Option (List Char) :=
  match l with
  | c :: rest =>
    if c == '-' then
      let ds := rest.takeWhile Char.isDigit
      if ds.isEmpty then none
      else some ('-' :: (ds ++ fracOf (rest.drop ds.length)))
    else
      let ds := l.takeWhile Char.isDigit
      if ds.isEmpty then none else some (ds ++ fracOf (l.drop ds.length))
  | [] => none

/-- re.search of the signed-decimal pattern: leftmost match wins. -/
def searchNumber : List Char → Option (List Char)
  | [] => none
  | c :: rest =>
    match numAt (c :: rest) with
    | some n => some n
    | none => searchNumber rest

/-- Full-string test for an integer-valued numeral with an all-zero fraction
(the collapse guard of app.py line 98). -/
def intDotZeros (l : List Char) : Bool :=
  let l1 := match l with
    | c :: rest => if c == '-' then rest else l
    | [] => l
  let ds := l1.takeWhile Char.isDigit
  !ds.isEmpty &&
    (match l1.drop ds.length with
     | c :: zs => c == '.' && !zs.isEmpty && zs.all (fun z => z == '0')
     | [] => false)

/-- Decimal digit string to natural number. -/
def digitsToNat (l : List Char) : Nat :=
  l.foldl (fun n c => 10 * n + (c.toNat - '0'.toNat)) 0

/-- Decimal rendering of a natural number, fuel-based so that it reduces in
the kernel; the initial fuel n+1 always suffices. -/
def natDigitsAux : Nat → Nat → List Char → List Char
  | 0, _, acc => acc
  | fuel + 1, n, acc =>
    if n < 10 then Nat.digitChar n :: acc
    else natDigitsAux fuel (n / 10) (Nat.digitChar (n % 10) :: acc)

/-- Decimal rendering of a natural number (Python str of a nonnegative int). -/
def natRepr (n : Nat) : List Char := natDigitsAux (n + 1) n []

/-- Python str of an int (note minus zero does not exist in Int, matching
Python's int normalization). -/
def intRepr (v : Int) : List Char :=
  if v < 0 then '-' :: natRepr v.natAbs else natRepr v.natAbs

/-- Integer value of a numeral of the shape optional minus, digits, fraction:
the truncated value Python's int(float(num)) produces on the all-zero-fraction
numerals reaching this point. -/
def intValOf (l : List Char) : Int :=
  match l with
  | c :: rest =>
    if c == '-' then -(digitsToNat (rest.takeWhile Char.isDigit) : Int)
    else (digitsToNat (l.takeWhile Char.isDigit) : Int)
  | [] => 0

/-- Collapse of an integer-valued numeral with decimal point to the plain
integer string (app.py line 99). -/
def collapseIntL (l : List Char) : List Char := intRepr (intValOf l)

/-- Minus-sign prepending when the parenthesized-negative flag is set and the
matched numeral has no leading minus (app.py lines 96-97). -/
def negFix (neg : Bool) (num0 : List Char) : List Char :=
  if neg && !(num0.head? == some '-') then '-' :: num0 else num0

/-- Final numeric steps of clean_amount after parenthesis handling: pattern
search, sign fix, trailing-zero collapse. -/
def cleanNum (pn : Bool × List Char) : List Char :=
  match searchNumber pn.2 with
  | none => []
  | some num0 =>
    if intDotZeros (negFix pn.1 num0) then collapseIntL (negFix pn.1 num0)
    else negFix pn.1 num0

/-- app.py clean_amount on a character list: strip, fix non-breaking spaces,
drop word-bounded USD, drop dollar signs and commas, strip, handle
parenthesized negatives, then the numeric steps. -/
def cleanL (l : List Char) : List Char :=
  cleanNum (parenNeg (stripChars
    ((removeUSD none ((stripChars l).map nbspFix)).filter keepCh)))

/-- app.py clean_amount. -/
def clean_amount (x : String) : String := String.mk (cleanL x.data)

/-! ## Header patterns (app.py lines 19-44)

Each compiled pattern of HEADER_PATTERNS is a sequence of plain items followed
by one trailing captured character-class-plus, so a pattern is embedded as
that item list plus the capture class.  Matching is greedy with backtracking,
as in Python's re engine; search tries start positions left to right. -/

/-- One non-capturing piece of a header pattern: a case-insensitive literal, a
single character class, an optional character class, an optional
case-insensitive literal, a greedy class star, or a word boundary. -/
inductive Item where
  | lit : String → Item
  | one : (Char → Bool) → Item
  | opt : (Char → Bool) → Item
  | optLit : String → Item
  | star : (Char → Bool) → Item
  | wb : Item

/-- A header pattern: the non-capturing items, then one captured
character-class-plus at the end. -/
structure NPat where
  items : List Item
  capCls : Char → Bool

/-- Consume a case-insensitive literal, returning the new previous-character
and the remaining input. -/
def ciConsume : List Char → Option Char → List Char → Option (Option Char × List Char)
  | [], pv, s => some (pv, s)
  | p :: ps, _, c :: cs =>
    if p.toLower == c.toLower then ciConsume ps (some c) cs else none
  | _ :: _, _, [] => none

/-- Regex word boundary between the previous character and the current
position. -/
def isBoundary (prev : Option Char) (s : List Char) : Bool :=
  (match prev with | some c => isWordChar c | none => false)
    != (match s with | c :: _ => isWordChar c | [] => false)

/-- The trailing capture: a greedy nonempty run of the capture class. -/
def capturePlus (cap : Char → Bool) (s : List Char) : Option (List Char) :=
  let g := s.takeWhile cap
  if g.isEmpty then none else some g

/-- Backtracking matcher for an item list followed by the capture, fuel-based
so that it reduces in the kernel.  The Bool selects between the item
dispatcher (false) and the greedy-star state (true, with the star's class as
the function argument); greedy choices try the longer consumption first and
give characters back on failure, as Python's engine does.  The fuel passed by
searchPat exceeds the backtracking depth, so the fuel-exhausted branch is
never reached there. -/
def matchGo : Nat → Bool → (Char → Bool) → List Item → Option Char → List Char →
    (Char → Bool) → Option (List Char)
  | 0, _, _, _, _, _, _ => none
  | fuel + 1, false, _, items, prev, s, cap =>
    match items with
    | [] => capturePlus cap s
    | Item.lit ls :: rest =>
      match ciConsume ls.data prev s with
      | some pr => matchGo fuel false (fun _ => false) rest pr.1 pr.2 cap
      | none => none
    | Item.one c :: rest =>
      match s with
      | a :: s1 =>
        if c a then matchGo fuel false (fun _ => false) rest (some a) s1 cap else none
      | [] => none
    | Item.opt c :: rest =>
      match s with
      | a :: s1 =>
        if c a then
          match matchGo fuel false (fun _ => false) rest (some a) s1 cap with
          | some r => some r
          | none => matchGo fuel false (fun _ => false) rest prev s cap
        else matchGo fuel false (fun _ => false) rest prev s cap
      | [] => matchGo fuel false (fun _ => false) rest prev s cap
    | Item.optLit ls :: rest =>
      match ciConsume ls.data prev s with
      | some pr =>
        (match matchGo fuel false (fun _ => false) rest pr.1 pr.2 cap with
         | some r => some r
         | none => matchGo fuel false (fun _ => false) rest prev s cap)
      | none => matchGo fuel false (fun _ => false) rest prev s cap
    | Item.wb :: rest =>
      if isBoundary prev s then matchGo fuel false (fun _ => false) rest prev s cap
      else none
    | Item.star c :: rest => matchGo fuel true c rest prev s cap
  | fuel + 1, true, c, rest, prev, s, cap =>
    match s with
    | a :: s1 =>
      if c a then
        match matchGo fuel true c rest (some a) s1 cap with
        | some r => some r
        | none => matchGo fuel false (fun _ => false) rest prev s cap
      else matchGo fuel false (fun _ => false) rest prev s cap
    | [] => matchGo fuel false (fun _ => false) rest prev s cap

/-- re.search: try the pattern at each start position, leftmost match wins;
prev is the character before the current position. -/
def searchAux (p : NPat) (fuel : Nat) : Option Char → List Char → Option (List Char)
  | prev, s =>
    match matchGo fuel false (fun _ => false) p.items prev s p.capCls with
    | some g => some g
    | none =>
      match s with
      | [] => none
      | c :: rest => searchAux p fuel (some c) rest

/-- Search a header pattern in a text, returning the captured group. -/
def searchPat (p : NPat) (text : String) : Option (List Char) :=
  searchAux p ((p.items.length + 1) * (text.data.length + 3)) none text.data

/-- Post-processing of a captured group (app.py line 43): collapse internal
whitespace to single spaces and strip. -/
def collapseWsStrip (g : List Char) : String := String.mk (stripChars (collapseWs g))

/-- app.py _first_match: first pattern in the ordered list that matches wins;
empty string when none matches. -/
def first_match : List NPat → String → String
  | [], _ => ""
  | p :: rest, text =>
    match searchPat p text with
    | some g => collapseWsStrip g
    | none => first_match rest text

/-- Whitespace class of the patterns. -/
def wsCls (c : Char) : Bool := pySpace c

/-- The colon-or-hyphen class of the patterns. -/
def colonDash (c : Char) : Bool := c == ':' || c == '-'

/-- The digits-and-hyphens capture class of the PO-number patterns. -/
def digitDash (c : Char) : Bool := c.isDigit || c == '-'

/-- The rest-of-line capture class (anything except CR and LF). -/
def lineCls (c : Char) : Bool := !(c == '\n' || c == '\r')

/-- Pattern Plan, whitespace, Period, whitespace, colon-or-hyphen, whitespace,
capture rest of line. -/
def planPeriodPat1 : NPat :=
  ⟨[Item.lit "Plan", Item.star wsCls, Item.lit "Period", Item.star wsCls,
    Item.one colonDash, Item.star wsCls], lineCls⟩

/-- Pattern Period, colon-or-hyphen, capture rest of line. -/
def planPeriodPat2 : NPat :=
  ⟨[Item.lit "Period", Item.star wsCls, Item.one colonDash, Item.star wsCls], lineCls⟩

/-- Pattern Plan Window, colon-or-hyphen, capture rest of line. -/
def planPeriodPat3 : NPat :=
  ⟨[Item.lit "Plan", Item.star wsCls, Item.lit "Window", Item.star wsCls,
    Item.one colonDash, Item.star wsCls], lineCls⟩

/-- HEADER_PATTERNS plan_period, in source order. -/
def planPeriodPats : List NPat := [planPeriodPat1, planPeriodPat2, planPeriodPat3]

/-- Pattern word boundary, PO Number, colon-or-hyphen, capture digits and
hyphens. -/
def poPat1 : NPat :=
  ⟨[Item.wb, Item.lit "PO", Item.star wsCls, Item.lit "Number", Item.star wsCls,
    Item.one colonDash, Item.star wsCls], digitDash⟩

/-- Pattern word boundary, PO hash, optional colon-or-hyphen, capture digits
and hyphens. -/
def poPat2 : NPat :=
  ⟨[Item.wb, Item.lit "PO", Item.star wsCls, Item.lit "#", Item.star wsCls,
    Item.opt colonDash, Item.star wsCls], digitDash⟩

/-- Pattern word boundary, Purchase Order, optional Number, colon-or-hyphen,
capture digits and hyphens. -/
def poPat3 : NPat :=
  ⟨[Item.wb, Item.lit "Purchase", Item.star wsCls, Item.lit "Order", Item.star wsCls,
    Item.optLit "Number", Item.star wsCls, Item.one colonDash, Item.star wsCls],
   digitDash⟩

/-- Pattern word boundary, PO, colon-or-hyphen, capture digits and hyphens. -/
def poPat4 : NPat :=
  ⟨[Item.wb, Item.lit "PO", Item.star wsCls, Item.one colonDash, Item.star wsCls],
   digitDash⟩

/-- HEADER_PATTERNS po_number, in source order. -/
def poPats : List NPat := [poPat1, poPat2, poPat3, poPat4]

/-- Pattern Partner Legal Name, colon-or-hyphen, capture rest of line. -/
def partnerPat1 : NPat :=
  ⟨[Item.lit "Partner", Item.star wsCls, Item.lit "Legal", Item.star wsCls,
    Item.lit "Name", Item.star wsCls, Item.one colonDash, Item.star wsCls], lineCls⟩

/-- Pattern Partner Name, colon-or-hyphen, capture rest of line. -/
def partnerPat2 : NPat :=
  ⟨[Item.lit "Partner", Item.star wsCls, Item.lit "Name", Item.star wsCls,
    Item.one colonDash, Item.star wsCls], lineCls⟩

/-- Pattern Partner, colon-or-hyphen, capture rest of line. -/
def partnerPat3 : NPat :=
  ⟨[Item.lit "Partner", Item.star wsCls, Item.one colonDash, Item.star wsCls], lineCls⟩

/-- Pattern Reseller, colon-or-hyphen, capture rest of line. -/
def partnerPat4 : NPat :=
  ⟨[Item.lit "Reseller", Item.star wsCls, Item.one colonDash, Item.star wsCls], lineCls⟩

/-- HEADER_PATTERNS partner, in source order. -/
def partnerPats : List NPat := [partnerPat1, partnerPat2, partnerPat3, partnerPat4]

/-- app.py extract_headers on the text of the first two pages: the returned
dictionary, as an ordered key-value list with the source's keys. -/
def extract_headers (text : String) : List (String × String) :=
  [("Partner", first_match partnerPats text),
   ("PO Number", first_match poPats text),
   ("Plan Period", first_match planPeriodPats text)]

/-- Python dict.get with a default, over the ordered key-value list. -/
def dict_get (d : List (String × String)) (k v : String) : String :=
  match d.find? (fun kv => kv.1 == k) with
  | some kv => kv.2
  | none => v

/-! ## Column resolution (app.py lines 59-66, 102-132) -/

/-- One grouped-thousands block: comma then exactly three digits (the part of
the currency pattern that decides whether a match exists). -/
def currencyGroup (l : List Char) : Bool :=
  match l with
  | c :: a :: b :: d :: _ => c == ',' && a.isDigit && b.isDigit && d.isDigit
  | _ => false

/-- One to three digits (tried greedily) followed by a grouped-thousands
block. -/
def currencyDigits : List Char → Nat → Bool
  | l, n + 1 =>
    match l with
    | c :: rest => c.isDigit && (currencyGroup rest || currencyDigits rest n)
    | [] => false
  | _, 0 => false

/-- Match of the currency-like pattern at this position: dollar sign, one to
three digits, at least one comma-plus-three-digits group.  The further greedy
groups and the optional fraction of the source pattern never affect whether a
match exists, so containment is decided by this prefix. -/
def currencyAt (l : List Char) : Bool :=
  match l with
  | c :: rest => c == '$' && currencyDigits rest 3
  | [] => false

/-- Containment of the currency-like pattern (pandas str.contains with the
pattern of app.py line 127). -/
def currencyFrom : List Char → Bool
  | [] => false
  | c :: rest => currencyAt (c :: rest) || currencyFrom rest

/-- Containment of the currency-like pattern in a cell. -/
def currencyContains (s : String) : Bool := currencyFrom s.data

/-- The per-table column map from semantic role to column index. -/
structure ColMap where
  activity : Option Nat
  description : Option Nat
  amount : Option Nat
deriving DecidableEq

/-- COL_SYNONYMS activity. -/
def activitySyns : List String := ["activity", "activitiy", "acti vity", "actvity"]

/-- COL_SYNONYMS description. -/
def descriptionSyns : List String := ["description", "descr", "desription"]

/-- COL_SYNONYMS amount. -/
def amountSyns : List String :=
  ["up to amount (usd)", "up to amount", "amount (usd)", "amount",
   "budget (usd)", "budget", "total amount (usd)", "max amount (usd)"]

/-- Does any synonym occur as a substring of the normalized header cell? -/
def roleHit (syns : List String) (col : String) : Bool :=
  syns.any (fun s => isSubL s.data col.data)

/-- Role assignment for one header cell: each role is assigned this index when
a synonym matches and the role is still unassigned (app.py lines 115-120). -/
def synStep (cm : ColMap) (idx : Nat) (col : String) : ColMap :=
  let colClean := normalize_header col
  let cm1 :=
    if roleHit activitySyns colClean && cm.activity.isNone then
      { cm with activity := some idx }
    else cm
  let cm2 :=
    if roleHit descriptionSyns colClean && cm1.description.isNone then
      { cm1 with description := some idx }
    else cm1
  if roleHit amountSyns colClean && cm2.amount.isNone then
    { cm2 with amount := some idx }
  else cm2

/-- Synonym-based role assignment over the header cells, left to right. -/
def synonymColMap (header : List String) : ColMap :=
  (header.enum).foldl (fun cm p => synStep cm p.1 p.2) ⟨none, none, none⟩

/-- Header-row test: the joined stripped cells contain both an activ fragment
and a descr fragment, case-insensitively (app.py line 107). -/
def headerRowHit (row : List String) : Bool :=
  ciContains "activ" (joinSpace (row.map pyStrip))
    && ciContains "descr" (joinSpace (row.map pyStrip))

/-- Header-row index: the first hit among the first twenty rows, else 0. -/
def headerRowIdx (t : List (List String)) : Nat :=
  match (t.take 20).findIdx? headerRowHit with
  | some i => i
  | none => 0

/-- Normalized header row of a table. -/
def headerOf (t : List (List String)) : List String :=
  (t.getD (headerRowIdx t) []).map normalize_header

/-- Data rows of a table: everything strictly after the header row. -/
def dataOf (t : List (List String)) : List (List String) :=
  t.drop (headerRowIdx t + 1)

/-- Number of data rows whose cell in column j contains the currency-like
pattern (app.py lines 126-128). -/
def currencyScore (data : List (List String)) (j : Nat) : Nat :=
  data.countP (fun row => currencyContains (row.getD j ""))

/-- Python tuple comparison, at-least, on score-index pairs. -/
def tupGE (x y : Nat × Nat) : Bool :=
  decide (y.1 < x.1) || (decide (x.1 = y.1) && decide (y.2 ≤ x.2))

/-- Insertion into a descending-sorted pair list. -/
def insertDesc (x : Nat × Nat) : List (Nat × Nat) → List (Nat × Nat)
  | [] => [x]
  | y :: ys => if tupGE x y then x :: y :: ys else y :: insertDesc x ys

/-- Python list.sort with reverse set, on score-index pairs: descending
lexicographic order (all pairs here have distinct indices, so stability is
immaterial). -/
def sortDesc (l : List (Nat × Nat)) : List (Nat × Nat) := l.foldr insertDesc []

/-- Content-heuristic amount fallback (app.py lines 123-131): when the amount
role is unassigned and data exists, score every column, sort the score-index
pairs descending, and take the top column when its score is positive. -/
def withAmountFallback (header : List String) (data : List (List String))
    (cm : ColMap) : ColMap :=
  if cm.amount.isNone && !data.isEmpty then
    match sortDesc ((List.range header.length).map (fun j => (currencyScore data j, j))) with
    | sj :: _ => if 0 < sj.1 then { cm with amount := some sj.2 } else cm
    | [] => cm
  else cm

/-- app.py _pick_column_indices: data rows and the resolved column map. -/
def pickColumnIndices (t : List (List String)) : List (List String) × ColMap :=
  (dataOf t, withAmountFallback (headerOf t) (dataOf t) (synonymColMap (headerOf t)))

/-! ## Table record assembly (app.py lines 134-190) -/

/-- One output record: composed description and normalized amount. -/
structure LineItemRecord where
  description : String
  amount : String
deriving DecidableEq

/-- Cell access with an out-of-range default of the empty string (the
index-below-row-length guards of app.py lines 175-176 and 185). -/
def cellAt (row : List String) (i : Nat) : String := row.getD i ""

/-- Per-row record assembly (app.py lines 174-186): skip blank rows and
repeated-header rows, else compose the description and clean the amount. -/
def rowRecord (ai di : Nat) (m : Option Nat) (pp : String) (row : List String) :
    Option LineItemRecord :=
  let activity := pyStrip (cellAt row ai)
  let descr := pyStrip (cellAt row di)
  if activity == "" && descr == "" then none
  else
    let joined := lowerS (pyStrip (activity ++ " " ++ descr))
    if startsWithS joined "activity" || startsWithS joined "description" then none
    else
      some { description := truncate activity ++ " - " ++ truncate descr ++ " - " ++ pp,
             amount := clean_amount (match m with | some mi => cellAt row mi | none => "") }

/-- Record assembly over the data rows of one table. -/
def assembleRows (ai di : Nat) (m : Option Nat) (pp : String)
    (data : List (List String)) : List LineItemRecord :=
  data.filterMap (rowRecord ai di m pp)

/-- Continuation handling (app.py lines 166-168): when activity or description
is unresolved and a previous map exists, reuse the previous map and take the
table's full row set as data. -/
def inheritMap (last : Option ColMap) (cm : ColMap) (data t : List (List String)) :
    ColMap × List (List String) :=
  match last with
  | some lcm =>
    if cm.activity.isNone || cm.description.isNone then (lcm, t) else (cm, data)
  | none => (cm, data)

/-- Assembly once the effective map is fixed: a table still lacking activity
or description contributes nothing and clears the continuation state (app.py
lines 170-172); otherwise its rows are assembled and the used map is stored
(app.py line 188). -/
def stepResolved (pp : String) (cm : ColMap) (data : List (List String)) :
    Option ColMap × List LineItemRecord :=
  match cm.activity, cm.description with
  | some ai, some di =>
    (some ⟨some ai, some di, cm.amount⟩, assembleRows ai di cm.amount pp data)
  | _, _ => (none, [])

/-- Number of columns of a table grid. -/
def ncols (t : List (List String)) : Nat :=
  match t with
  | [] => 0
  | r :: _ => r.length

/-- One iteration of the table loop: skip empty or single-column tables, else
resolve, inherit, and assemble. -/
def stepTable (pp : String) (last : Option ColMap) (t : List (List String)) :
    Option ColMap × List LineItemRecord :=
  if t = [] ∨ ncols t < 2 then (last, [])
  else
    stepResolved pp (inheritMap last (pickColumnIndices t).2 (pickColumnIndices t).1 t).1
      (inheritMap last (pickColumnIndices t).2 (pickColumnIndices t).1 t).2

/-- The table loop: records in document order, threading the last column map. -/
def runTables (pp : String) : Option ColMap → List (List (List String)) →
    List LineItemRecord
  | _, [] => []
  | st, t :: ts => (stepTable pp st t).2 ++ runTables pp (stepTable pp st t).1 ts

/-- app.py extract_table_records, over the tables the external engine
detected. -/
def extract_table_records (tables : List (List (List String))) (plan_period : String) :
    List LineItemRecord :=
  runTables plan_period none tables

/-! ## extract and output-row assembly (app.py lines 192-198, 238-245) -/

/-- app.py extract: headers (read back with the lowercase snake-case keys, as
in the source), then table records using the plan period. -/
def extract (text : String) (tables : List (List (List String))) :
    String × String × String × List LineItemRecord :=
  (dict_get (extract_headers text) "po_number" "",
   dict_get (extract_headers text) "plan_period" "",
   dict_get (extract_headers text) "partner" "",
   extract_table_records tables (dict_get (extract_headers text) "plan_period" ""))

/-- One row of the output DataFrame. -/
structure OutputRow where
  po_number : String
  partner : String
  description : String
  amount : String
deriving DecidableEq

/-- The output DataFrame assembly of the module-level UI code. -/
def outputRows (po partner : String) (rows : List LineItemRecord) : List OutputRow :=
  rows.map (fun r =>
    { po_number := po, partner := partner, description := r.description,
      amount := r.amount })

/-- End-to-end pipeline on a document: extract, then output-row assembly. -/
def pipeline (text : String) (tables : List (List (List String))) : List OutputRow :=
  outputRows (extract text tables).1 (extract text tables).2.2.1
    (extract text tables).2.2.2

/-! ## Shape predicates for the clean_amount claims -/

/-- Characters that may occur in a clean_amount result. -/
def goodChar (c : Char) : Bool := c.isDigit || c == '-' || c == '.'

/-- Checker for the claimed output shape of clean_amount: an optional leading
minus sign, digits, optionally a decimal point and digits (stated from the
claim's words, to be compared with the code's behaviour). -/
def specNumForm (l : List Char) : Bool :=
  let l1 := match l with
    | c :: rest => if c == '-' then rest else l
    | [] => l
  let ds := l1.takeWhile Char.isDigit
  !ds.isEmpty &&
    (match l1.drop ds.length with
     | [] => true
     | c :: fs => c == '.' && !fs.isEmpty && fs.all Char.isDigit)

/-- A nonempty all-digit character list. -/
def DigitsNE (l : List Char) : Prop := l ≠ [] ∧ ∀ c ∈ l, c.isDigit = true

/-- A wellformed optional fraction: empty, or a dot followed by nonempty
digits. -/
def FracOk (fr : List Char) : Prop := fr = [] ∨ ∃ fs, fr = '.' :: fs ∧ DigitsNE fs

/-- Decomposition of a signed-decimal numeral. -/
def NumParts (n : List Char) : Prop :=
  ∃ sgn ds fr, n = sgn ++ ds ++ fr ∧ (sgn = [] ∨ sgn = ['-']) ∧ DigitsNE ds ∧ FracOk fr

/-- Invariant of clean_amount results: empty, or a signed-decimal numeral
whose fraction, if present, is not all zeros. -/
def CleanForm (l : List Char) : Prop :=
  l = [] ∨ (NumParts l ∧ intDotZeros l = false)

/-! ## Helper lemmas -/

theorem str_append_nil (s : String) : s ++ "" = s := by
  cases s with
  | mk l => exact congrArg String.mk (List.append_nil l)

theorem rowRecord_description (ai di : Nat) (m : Option Nat) (pp : String)
    (row : List String) (r : LineItemRecord) (h : rowRecord ai di m pp row = some r) :
    ∃ x y : String, r.description = x ++ " - " ++ y ++ " - " ++ pp := by
  simp only [rowRecord] at h
  split at h
  · exact absurd h (by simp)
  · split at h
    · exact absurd h (by simp)
    · refine ⟨truncate (pyStrip (cellAt row ai)), truncate (pyStrip (cellAt row di)), ?_⟩
      cases h
      rfl

theorem mem_stepTable_records (pp : String) (st : Option ColMap)
    (t : List (List String)) (r : LineItemRecord)
    (h : r ∈ (stepTable pp st t).2) :
    ∃ ai di m data, rowRecord ai di m pp data = some r := by
  unfold stepTable at h
  split at h
  · simp at h
  · rcases ha : (inheritMap st (pickColumnIndices t).2 (pickColumnIndices t).1 t).1.activity
        with _ | ai <;>
      rcases hd : (inheritMap st (pickColumnIndices t).2 (pickColumnIndices t).1 t).1.description
        with _ | di <;>
      simp only [stepResolved, ha, hd] at h
    · simp at h
    · simp at h
    · simp at h
    · simp only [assembleRows] at h
      rcases List.mem_filterMap.mp h with ⟨row, _, hrow⟩
      exact ⟨ai, di, _, row, hrow⟩

theorem record_description_dash (ts : List (List (List String))) (st : Option ColMap)
    (r : LineItemRecord) (h : r ∈ runTables "" st ts) :
    ∃ s : String, r.description = s ++ " - " := by
  induction ts generalizing st with
  | nil => simp [runTables] at h
  | cons t ts ih =>
    simp only [runTables] at h
    rcases List.mem_append.mp h with hl | hr
    · rcases mem_stepTable_records "" st t r hl with ⟨ai, di, m, row, hrow⟩
      rcases rowRecord_description ai di m "" row r hrow with ⟨x, y, hxy⟩
      exact ⟨x ++ " - " ++ y, by rw [hxy]; exact str_append_nil _⟩
    · exact ih _ hr

/-! ## Claim theorems (part 1) -/

/-- C4: clean_amount satisfies the five specified examples: grouped dollars
collapse to a plain integer string, parenthesized values become negative,
a word-bounded USD marker is dropped, and empty or non-numeric input yields
the empty string. -/
theorem c4_clean_amount_examples :
    clean_amount "$1,234.00" = "1234" ∧ clean_amount "(500)" = "-500" ∧
    clean_amount "USD 99.50" = "99.50" ∧ clean_amount "" = "" ∧
    clean_amount "n/a" = "" := by
  refine ⟨?_, ?_, ?_, ?_, ?_⟩ <;> rfl

/-- C1 (claim is right, code is wrong): on the claim's document - first-page
text with the PO Number, Period and Partner lines and the single two-row
table - the pipeline yields exactly one OutputRow, but with empty PO Number
and Partner and with the plan period missing from the Description, because
extract reads the header dictionary with lowercase snake-case keys while
extract_headers returns title-case keys.  The claimed row is not produced
(it also could not be in full: the PO-number patterns capture digits and
hyphens only, so even with matching keys the PO Number would be 9001). -/
theorem c1_pipeline_eval :
    pipeline "PO Number: PO-9001\nPeriod: Q1 2025\nPartner: Acme Corp"
        [[["Activity", "Description", "Amount"],
          ["Training", "Regional training", "$1,000.00"]]]
      = [{ po_number := "", partner := "", description := "Training - Regional training - ",
           amount := "1000" }] ∧
    pipeline "PO Number: PO-9001\nPeriod: Q1 2025\nPartner: Acme Corp"
        [[["Activity", "Description", "Amount"],
          ["Training", "Regional training", "$1,000.00"]]]
      ≠ [{ po_number := "PO-9001", partner := "Acme Corp",
           description := "Training - Regional training - Q1 2025", amount := "1000" }] := by
  constructor
  · rfl
  · decide

/-- C3 (counterexample): a table whose header has no amount synonym and whose
single data row has currency-like cells in columns 0 and 2 (equal scores of
one, both positive).  The claim says the tie goes to the lowest column index
0; the code assigns the highest tied index 2, because Python's reverse tuple
sort puts the larger index first among equal scores. -/
theorem c3_tiebreak_counterexample :
    (synonymColMap (headerOf [["Activity", "Description", "Notes"],
        ["$1,000.00", "x", "$2,000.00"]])).amount = none ∧
    currencyScore (dataOf [["Activity", "Description", "Notes"],
        ["$1,000.00", "x", "$2,000.00"]]) 0 = 1 ∧
    currencyScore (dataOf [["Activity", "Description", "Notes"],
        ["$1,000.00", "x", "$2,000.00"]]) 2 = 1 ∧
    (pickColumnIndices [["Activity", "Description", "Notes"],
        ["$1,000.00", "x", "$2,000.00"]]).2.amount = some 2 ∧
    ¬ (pickColumnIndices [["Activity", "Description", "Notes"],
        ["$1,000.00", "x", "$2,000.00"]]).2.amount = some 0 := by
  refine ⟨rfl, rfl, rfl, rfl, ?_⟩
  decide

/-- C2: for every document, the po_number, plan_period and partner values
extract returns are the empty string (the dictionary is keyed Partner,
PO Number, Plan Period while extract reads po_number, plan_period, partner),
so the record list is built with an empty plan period and every composed
description ends with the separator followed by that empty plan period. -/
theorem c2_extract_empty_headers (text : String) (tables : List (List (List String))) :
    extract text tables = ("", "", "", extract_table_records tables "") ∧
    ∀ r ∈ (extract text tables).2.2.2, ∃ s : String, r.description = s ++ " - " := by
  refine ⟨rfl, ?_⟩
  intro r hr
  exact record_description_dash tables none r hr

/-- C2 witness: the theorem applied to the concrete end-to-end document; its
single record's description ends with the separator and empty plan period. -/
theorem c2_witness :
    extract "PO Number: PO-9001\nPeriod: Q1 2025\nPartner: Acme Corp"
        [[["Activity", "Description", "Amount"],
          ["Training", "Regional training", "$1,000.00"]]]
      = ("", "", "",
         extract_table_records
           [[["Activity", "Description", "Amount"],
             ["Training", "Regional training", "$1,000.00"]]] "") ∧
    ∃ s : String,
      (LineItemRecord.mk "Training - Regional training - " "1000").description = s ++ " - " := by
  refine ⟨(c2_extract_empty_headers _ _).1, ?_⟩
  exact (c2_extract_empty_headers "PO Number: PO-9001\nPeriod: Q1 2025\nPartner: Acme Corp"
    [[["Activity", "Description", "Amount"],
      ["Training", "Regional training", "$1,000.00"]]]).2
    (LineItemRecord.mk "Training - Regional training - " "1000") (by decide)

/-- C9: a data row whose activity and description cells are both empty after
stripping produces no record and is dropped from the assembled rows, whatever
its amount cell holds. -/
theorem c9_blank_rows (ai di : Nat) (m : Option Nat) (pp : String) (row : List String)
    (rest : List (List String))
    (ha : pyStrip (cellAt row ai) = "") (hd : pyStrip (cellAt row di) = "") :
    rowRecord ai di m pp row = none ∧
    assembleRows ai di m pp (row :: rest) = assembleRows ai di m pp rest := by
  have h1 : rowRecord ai di m pp row = none := by
    simp only [rowRecord, ha, hd]
    simp
  exact ⟨h1, by simp [assembleRows, List.filterMap_cons, h1]⟩

/-- C9 witness: a concrete blank row with a currency amount cell contributes
nothing. -/
theorem c9_witness :
    rowRecord 0 1 (some 2) "Q1" ["", "  ", "$5,000.00"] = none ∧
    assembleRows 0 1 (some 2) "Q1" [["", "  ", "$5,000.00"]]
      = assembleRows 0 1 (some 2) "Q1" [] := by
  exact c9_blank_rows 0 1 (some 2) "Q1" ["", "  ", "$5,000.00"] [] (by decide) (by decide)

/-! ## Claim theorems (part 2) -/

/-- C7: a table of valid shape whose activity or description role is still
unassigned after resolution and continuation inheritance contributes no
records, clears the stored column map, and the loop proceeds to the next
table. -/
theorem c7_malformed_recovery (pp : String) (last : Option ColMap)
    (t : List (List String)) (ts : List (List (List String)))
    (hshape : ¬ (t = [] ∨ ncols t < 2))
    (hbad : (inheritMap last (pickColumnIndices t).2 (pickColumnIndices t).1 t).1.activity = none ∨
      (inheritMap last (pickColumnIndices t).2 (pickColumnIndices t).1 t).1.description = none) :
    stepTable pp last t = (none, []) ∧
    runTables pp last (t :: ts) = runTables pp none ts := by
  have hstep : stepTable pp last t = (none, []) := by
    unfold stepTable
    rw [if_neg hshape]
    unfold stepResolved
    rcases hbad with hb | hb
    · rw [hb]
    · rw [hb]
      rcases (inheritMap last (pickColumnIndices t).2 (pickColumnIndices t).1 t).1.activity
        with _ | ai <;> rfl
  refine ⟨hstep, ?_⟩
  show (stepTable pp last t).2 ++ runTables pp (stepTable pp last t).1 ts
    = runTables pp none ts
  rw [hstep]
  simp

/-- C7 witness: a two-column table with no resolvable roles, processed with a
stale continuation map lacking a description index, is dropped and resets the
state; the following valid table is still processed. -/
theorem c7_witness :
    stepTable "p" (some ⟨some 0, none, none⟩) [["x", "y"]] = (none, []) ∧
    runTables "p" (some ⟨some 0, none, none⟩)
        [[["x", "y"]], [["Activity", "Description"], ["A", "B"]]]
      = runTables "p" none [[["Activity", "Description"], ["A", "B"]]] := by
  exact c7_malformed_recovery "p" (some ⟨some 0, none, none⟩) [["x", "y"]]
    [[["Activity", "Description"], ["A", "B"]]] (by decide) (by decide)

/-- C6: a table resolving activity 0, description 1, amount 2, immediately
followed by a headerless table whose own resolution leaves activity or
description unassigned, makes the second table inherit the first table's
column map, and all of the second table's rows are used as data rows. -/
theorem c6_continuation (pp : String) (t1 t2 : List (List String))
    (d1 : List (List String))
    (h1 : pickColumnIndices t1 = (d1, ⟨some 0, some 1, some 2⟩))
    (h2 : (pickColumnIndices t2).2.activity = none ∨
      (pickColumnIndices t2).2.description = none)
    (hs1 : ¬ (t1 = [] ∨ ncols t1 < 2)) (hs2 : ¬ (t2 = [] ∨ ncols t2 < 2)) :
    extract_table_records [t1, t2] pp =
      assembleRows 0 1 (some 2) pp d1 ++ assembleRows 0 1 (some 2) pp t2 := by
  have e1 : stepTable pp none t1
      = (some ⟨some 0, some 1, some 2⟩, assembleRows 0 1 (some 2) pp d1) := by
    unfold stepTable
    rw [if_neg hs1, h1]
    rfl
  have hcond : ((pickColumnIndices t2).2.activity.isNone
      || (pickColumnIndices t2).2.description.isNone) = true := by
    rcases h2 with h | h <;> simp [h]
  have e2 : stepTable pp (some ⟨some 0, some 1, some 2⟩) t2
      = (some ⟨some 0, some 1, some 2⟩, assembleRows 0 1 (some 2) pp t2) := by
    unfold stepTable
    rw [if_neg hs2]
    simp only [inheritMap, hcond, if_true]
    rfl
  show runTables pp none [t1, t2] = _
  simp [runTables, e1, e2]

/-- C6 witness: the theorem applied to a concrete table pair with a headerless
continuation table. -/
theorem c6_witness :
    extract_table_records
        [[["Activity", "Description", "Amount"], ["Training", "Workshop", "$1,500.00"]],
         [["Travel", "Conference trip", "$2,500.00"]]] "Q1"
      = assembleRows 0 1 (some 2) "Q1" [["Training", "Workshop", "$1,500.00"]]
        ++ assembleRows 0 1 (some 2) "Q1" [["Travel", "Conference trip", "$2,500.00"]] := by
  exact c6_continuation "Q1"
    [["Activity", "Description", "Amount"], ["Training", "Workshop", "$1,500.00"]]
    [["Travel", "Conference trip", "$2,500.00"]]
    [["Training", "Workshop", "$1,500.00"]]
    (by decide) (by decide) (by decide) (by decide)

/-- C8: the header extractor yields 12345-6 for the PO Number field on the
text PO Number: 12345-6 and the empty string on text without a PO-like
substring; in general the first matching pattern of the ordered list wins,
its captured group is returned with internal whitespace collapsed and
trimmed, and the empty string (not an error) results when no pattern
matches. -/
theorem c8_header_extraction :
    dict_get (extract_headers "PO Number: 12345-6") "PO Number" "" = "12345-6" ∧
    dict_get (extract_headers "Hello world") "PO Number" "" = "" ∧
    (∀ text : String, (∀ p ∈ poPats, searchPat p text = none) →
      first_match poPats text = "") ∧
    (∀ (pats1 pats2 : List NPat) (p : NPat) (text : String) (g : List Char),
      (∀ q ∈ pats1, searchPat q text = none) → searchPat p text = some g →
      first_match (pats1 ++ p :: pats2) text = collapseWsStrip g) := by
  refine ⟨rfl, rfl, ?_, ?_⟩
  · intro text h
    have h1 := h poPat1 (by simp [poPats])
    have h2 := h poPat2 (by simp [poPats])
    have h3 := h poPat3 (by simp [poPats])
    have h4 := h poPat4 (by simp [poPats])
    simp [poPats, first_match, h1, h2, h3, h4]
  · intro pats1 pats2 p text g hnone hsome
    induction pats1 with
    | nil => simp [first_match, hsome]
    | cons q qs ih =>
      have hq := hnone q (by simp)
      have hrest := ih (fun q' hq' => hnone q' (by simp [hq']))
      simpa [first_match, hq] using hrest

/-- C8 witness: the theorem's generic parts applied at concrete texts - a
text none of the PO patterns matches yields the empty string, and a matching
head pattern returns its processed captured group. -/
theorem c8_witness :
    first_match poPats "no po data" = "" ∧
    first_match ([] ++ poPat1 :: [poPat2, poPat3, poPat4]) "PO Number: 7"
      = collapseWsStrip ['7'] := by
  constructor
  · exact c8_header_extraction.2.2.1 "no po data" (by decide)
  · exact c8_header_extraction.2.2.2 [] [poPat2, poPat3, poPat4] poPat1 "PO Number: 7"
      ['7'] (by simp) (by decide)

/-! ## Sorting lemmas for the amount-fallback tie-break -/

theorem tupGE_refl (x : Nat × Nat) : tupGE x x = true := by
  simp [tupGE]

theorem tupGE_trans {x y z : Nat × Nat} (h1 : tupGE x y = true) (h2 : tupGE y z = true) :
    tupGE x z = true := by
  simp [tupGE] at *
  omega

theorem tupGE_total {x y : Nat × Nat} (h : ¬ tupGE x y = true) : tupGE y x = true := by
  simp [tupGE] at *
  omega

theorem mem_insertDesc {a x : Nat × Nat} {l : List (Nat × Nat)} :
    a ∈ insertDesc x l ↔ a = x ∨ a ∈ l := by
  induction l with
  | nil => simp [insertDesc]
  | cons y ys ih =>
    simp only [insertDesc]
    split
    · simp [List.mem_cons]
    · simp only [List.mem_cons, ih]
      tauto

theorem insertDesc_ne_nil (x : Nat × Nat) (l : List (Nat × Nat)) : insertDesc x l ≠ [] := by
  cases l with
  | nil => simp [insertDesc]
  | cons y ys =>
    simp only [insertDesc]
    split <;> simp

theorem sortDesc_eq_nil {l : List (Nat × Nat)} (h : sortDesc l = []) : l = [] := by
  cases l with
  | nil => rfl
  | cons a l' => exact absurd h (insertDesc_ne_nil a (sortDesc l'))

theorem sortDesc_mem {a : Nat × Nat} {l : List (Nat × Nat)} : a ∈ sortDesc l ↔ a ∈ l := by
  induction l with
  | nil => simp [sortDesc]
  | cons x xs ih =>
    show a ∈ insertDesc x (sortDesc xs) ↔ _
    rw [mem_insertDesc, ih]
    simp [List.mem_cons]

theorem sortDesc_head_ge {l : List (Nat × Nat)} {t : Nat × Nat} {r : List (Nat × Nat)}
    (h : sortDesc l = t :: r) : ∀ x ∈ l, tupGE t x = true := by
  induction l generalizing t r with
  | nil => simp [sortDesc] at h
  | cons a l' ih =>
    intro x hx
    have hs : sortDesc (a :: l') = insertDesc a (sortDesc l') := rfl
    rcases hb : sortDesc l' with _ | ⟨b, r'⟩
    · have hl' : l' = [] := sortDesc_eq_nil hb
      subst hl'
      rw [hs, hb] at h
      have ht : a = t := by
        have h' : [a] = t :: r := h
        injection h'
      simp only [List.mem_cons, List.not_mem_nil, or_false] at hx
      rw [hx, ← ht]
      exact tupGE_refl a
    · rw [hs, hb] at h
      by_cases hab : tupGE a b = true
      · rw [show insertDesc a (b :: r') = a :: b :: r' from by simp [insertDesc, hab]] at h
        injection h with h1 h2
        subst h1
        rcases List.mem_cons.mp hx with rfl | hx'
        · exact tupGE_refl x
        · exact tupGE_trans hab (ih hb x hx')
      · rw [show insertDesc a (b :: r') = b :: insertDesc a r' from by simp [insertDesc, hab]] at h
        injection h with h1 h2
        subst h1
        rcases List.mem_cons.mp hx with rfl | hx'
        · exact tupGE_total hab
        · exact ih hb x hx'

/-- C3 (amended): when no header cell matched an amount synonym and the
highest currency-pattern score S is positive and attained by at least two
columns, the amount role is assigned to the highest (last-seen) column index
among the columns attaining S - not the lowest. -/
theorem c3_tiebreak_amended (t : List (List String)) (S : Nat)
    (hsyn : (synonymColMap (headerOf t)).amount = none)
    (j1 j2 : Nat) (hlt : j1 < j2) (hlen : j2 < (headerOf t).length)
    (hs1 : currencyScore (dataOf t) j1 = S) (hs2 : currencyScore (dataOf t) j2 = S)
    (hpos : 0 < S)
    (hmax : ∀ j, j < (headerOf t).length → currencyScore (dataOf t) j ≤ S) :
    ∃ jstar, (pickColumnIndices t).2.amount = some jstar ∧
      currencyScore (dataOf t) jstar = S ∧
      ∀ j, j < (headerOf t).length → currencyScore (dataOf t) j = S → j ≤ jstar := by
  have hdata : ¬ (dataOf t).isEmpty = true := by
    intro h0
    have h0' : dataOf t = [] := by simpa using h0
    rw [h0'] at hs1
    simp [currencyScore] at hs1
    omega
  rcases hss : sortDesc ((List.range (headerOf t).length).map
      (fun j => (currencyScore (dataOf t) j, j))) with _ | ⟨⟨s0, j0⟩, rest⟩
  · exfalso
    have := sortDesc_eq_nil hss
    have hlen0 : (headerOf t).length = 0 := by simpa using this
    omega
  · have hmem : (s0, j0) ∈ (List.range (headerOf t).length).map
        (fun j => (currencyScore (dataOf t) j, j)) :=
      sortDesc_mem.mp (by rw [hss]; exact List.mem_cons_self _ _)
    have hj0 : j0 < (headerOf t).length ∧ s0 = currencyScore (dataOf t) j0 := by
      rcases List.mem_map.mp hmem with ⟨j, hj, hpair⟩
      have hjr := List.mem_range.mp hj
      have h1 : currencyScore (dataOf t) j = s0 := congrArg Prod.fst hpair
      have h2 : j = j0 := congrArg Prod.snd hpair
      subst h2
      exact ⟨hjr, h1.symm⟩
    have hge := sortDesc_head_ge hss
    have h1mem : (S, j1) ∈ (List.range (headerOf t).length).map
        (fun j => (currencyScore (dataOf t) j, j)) :=
      List.mem_map.mpr ⟨j1, List.mem_range.mpr (by omega), by rw [hs1]⟩
    have hgej1 : tupGE (s0, j0) (S, j1) = true := hge _ h1mem
    have hs0le : s0 ≤ S := by
      rw [hj0.2]
      exact hmax j0 hj0.1
    have hs0 : s0 = S := by
      simp [tupGE] at hgej1
      omega
    refine ⟨j0, ?_, ?_, ?_⟩
    · show (withAmountFallback (headerOf t) (dataOf t) (synonymColMap (headerOf t))).amount
        = some j0
      unfold withAmountFallback
      have hc1 : ((synonymColMap (headerOf t)).amount.isNone && !(dataOf t).isEmpty) = true := by
        simp [hsyn]
        simpa using hdata
      rw [hc1]
      simp only [if_true]
      rw [hss]
      have hpos0 : 0 < s0 := by omega
      simp [hpos0]
    · rw [← hj0.2]
      exact hs0.symm ▸ rfl
    · intro j hj hsj
      have hjmem : (S, j) ∈ (List.range (headerOf t).length).map
          (fun j => (currencyScore (dataOf t) j, j)) :=
        List.mem_map.mpr ⟨j, List.mem_range.mpr hj, by rw [hsj]⟩
      have hgj := hge _ hjmem
      simp [tupGE] at hgj
      omega

/-- C3 witness: the amended theorem applied to the concrete tied table - the
amount role lands on the highest tied column index. -/
theorem c3_witness :
    ∃ jstar,
      (pickColumnIndices [["Activity", "Description", "Notes"],
          ["$1,000.00", "x", "$2,000.00"]]).2.amount = some jstar ∧
      currencyScore (dataOf [["Activity", "Description", "Notes"],
          ["$1,000.00", "x", "$2,000.00"]]) jstar = 1 ∧
      ∀ j, j < (headerOf [["Activity", "Description", "Notes"],
          ["$1,000.00", "x", "$2,000.00"]]).length →
        currencyScore (dataOf [["Activity", "Description", "Notes"],
            ["$1,000.00", "x", "$2,000.00"]]) j = 1 → j ≤ jstar := by
  exact c3_tiebreak_amended
    [["Activity", "Description", "Notes"], ["$1,000.00", "x", "$2,000.00"]] 1
    (by decide) 0 2 (by decide) (by decide) (by decide) (by decide) (by decide)
    (by decide)

/-! ## clean_amount shape lemmas -/

theorem dropWhile_noop {p : Char → Bool} {l : List Char} (h : ∀ c ∈ l, p c = false) :
    l.dropWhile p = l := by
  cases l with
  | nil => rfl
  | cons c cs => simp [List.dropWhile_cons, h c (by simp)]

theorem strip_noop {l : List Char} (h : ∀ c ∈ l, pySpace c = false) : stripChars l = l := by
  unfold stripChars
  rw [dropWhile_noop h]
  rw [dropWhile_noop (fun c hc => h c (List.mem_reverse.mp hc))]
  exact List.reverse_reverse l

theorem map_noop {f : Char → Char} : ∀ l : List Char, (∀ c ∈ l, f c = c) → l.map f = l := by
  intro l
  induction l with
  | nil => intro _; rfl
  | cons c cs ih =>
    intro h
    simp only [List.map_cons, h c (by simp), ih (fun x hx => h x (by simp [hx]))]

theorem filter_noop {p : Char → Bool} : ∀ l : List Char, (∀ c ∈ l, p c = true) →
    l.filter p = l := by
  intro l
  induction l with
  | nil => intro _; rfl
  | cons c cs ih =>
    intro h
    simp only [List.filter_cons, h c (by simp), if_true,
      ih (fun x hx => h x (by simp [hx]))]

theorem removeUSD_noop : ∀ l : List Char, (∀ c ∈ l, c ≠ 'u' ∧ c ≠ 'U') →
    ∀ prev, removeUSD prev l = l := by
  intro l
  induction l with
  | nil => intro _ prev; rfl
  | cons a tail ih =>
    intro h prev
    have ha := h a (by simp)
    rcases tail with _ | ⟨b, tail2⟩
    · rfl
    · rcases tail2 with _ | ⟨d, rest⟩
      · rfl
      · have husd : usdHere prev a b d rest = false := by
          unfold usdHere
          rw [show (a == 'u' || a == 'U') = false from by simp [ha.1, ha.2]]
          simp
        show removeUSD prev (a :: b :: d :: rest) = _
        rw [removeUSD, husd]
        simp only [if_false, Bool.false_eq_true]
        rw [ih (fun x hx => h x (by simp [List.mem_cons] at hx ⊢; tauto)) (some a)]

theorem takeWhile_all {p : Char → Bool} : ∀ l : List Char, (∀ c ∈ l, p c = true) →
    l.takeWhile p = l := by
  intro l
  induction l with
  | nil => intro _; rfl
  | cons c cs ih =>
    intro h
    simp [List.takeWhile_cons, h c (by simp), ih (fun x hx => h x (by simp [hx]))]

theorem takeWhile_append_eq {p : Char → Bool} : ∀ l1 l2 : List Char,
    (∀ c ∈ l1, p c = true) → (∀ c cs, l2 = c :: cs → p c = false) →
    (l1 ++ l2).takeWhile p = l1 := by
  intro l1
  induction l1 with
  | nil =>
    intro l2 _ h2
    cases l2 with
    | nil => rfl
    | cons c cs => simp [List.takeWhile_cons, h2 c cs rfl]
  | cons a l1' ih =>
    intro l2 h1 h2
    simp [List.takeWhile_cons, h1 a (by simp),
      ih l2 (fun c hc => h1 c (by simp [hc])) h2]

theorem mem_takeWhile_p {p : Char → Bool} : ∀ (l : List Char) (c : Char),
    c ∈ l.takeWhile p → p c = true := by
  intro l
  induction l with
  | nil => intro c hc; simp [List.takeWhile] at hc
  | cons a l' ih =>
    intro c hc
    rw [List.takeWhile_cons] at hc
    by_cases hp : p a = true
    · simp only [hp, if_true, List.mem_cons] at hc
      rcases hc with rfl | hc'
      · exact hp
      · exact ih c hc'
    · simp only [hp] at hc
      simp at hc

theorem isDigit_ne_of {c x : Char} (hc : c.isDigit = true) (hx : x.isDigit = false) :
    c ≠ x := by
  intro he
  rw [he, hx] at hc
  cases hc

theorem digitChar_isDigit {m : Nat} (h : m < 10) : (Nat.digitChar m).isDigit = true := by
  interval_cases m <;> decide

theorem natDigitsAux_shape : ∀ (fuel n : Nat) (acc : List Char), n < fuel →
    ∃ ds, natDigitsAux fuel n acc = ds ++ acc ∧ ds ≠ [] ∧ ∀ c ∈ ds, c.isDigit = true := by
  intro fuel
  induction fuel with
  | zero => intro n acc h; omega
  | succ f ih =>
    intro n acc h
    by_cases h10 : n < 10
    · exact ⟨[Nat.digitChar n], by simp [natDigitsAux, h10], by simp,
        by simpa using digitChar_isDigit h10⟩
    · have hdiv : n / 10 < n := Nat.div_lt_self (by omega) (by omega)
      have hrec : n / 10 < f := by omega
      rcases ih (n / 10) (Nat.digitChar (n % 10) :: acc) hrec with ⟨ds, hds, hne, hdig⟩
      refine ⟨ds ++ [Nat.digitChar (n % 10)], ?_, by simp, ?_⟩
      · rw [show natDigitsAux (f + 1) n acc
            = natDigitsAux f (n / 10) (Nat.digitChar (n % 10) :: acc) from by
          simp [natDigitsAux, h10]]
        rw [hds]
        simp
      · intro c hc
        rcases List.mem_append.mp hc with h' | h'
        · exact hdig c h'
        · have : c = Nat.digitChar (n % 10) := by simpa using h'
          rw [this]
          exact digitChar_isDigit (Nat.mod_lt n (by omega))

theorem natRepr_digits (n : Nat) : natRepr n ≠ [] ∧ ∀ c ∈ natRepr n, c.isDigit = true := by
  rcases natDigitsAux_shape (n + 1) n [] (by omega) with ⟨ds, hds, hne, hdig⟩
  unfold natRepr
  rw [hds]
  simp only [List.append_nil]
  exact ⟨hne, hdig⟩

theorem fracOk_fracOf (l : List Char) : FracOk (fracOf l) := by
  unfold fracOf
  cases l with
  | nil => exact Or.inl rfl
  | cons c rest =>
    by_cases hc : (c == '.') = true
    · simp only [hc, if_true]
      by_cases he : (rest.takeWhile Char.isDigit).isEmpty = true
      · simp only [he, if_true]
        exact Or.inl rfl
      · simp only [he, if_false, Bool.false_eq_true]
        refine Or.inr ⟨_, rfl, ?_, fun x hx => mem_takeWhile_p _ _ hx⟩
        intro h0
        rw [h0] at he
        exact he rfl
    · simp only [hc, if_false, Bool.false_eq_true]
      exact Or.inl rfl

theorem numAt_parts {l n : List Char} (h : numAt l = some n) : NumParts n := by
  unfold numAt at h
  cases l with
  | nil => cases h
  | cons c rest =>
    by_cases hc : (c == '-') = true
    · simp only [hc, if_true] at h
      by_cases he : (rest.takeWhile Char.isDigit).isEmpty = true
      · rw [if_pos he] at h
        cases h
      · rw [if_neg he] at h
        have hn := Option.some.inj h
        refine ⟨['-'], rest.takeWhile Char.isDigit,
          fracOf (rest.drop (rest.takeWhile Char.isDigit).length), by rw [← hn]; simp,
          Or.inr rfl, ⟨?_, fun x hx => mem_takeWhile_p _ _ hx⟩, fracOk_fracOf _⟩
        intro h0
        rw [h0] at he
        exact he rfl
    · simp only [hc, if_false, Bool.false_eq_true] at h
      by_cases he : ((c :: rest).takeWhile Char.isDigit).isEmpty = true
      · rw [if_pos he] at h
        cases h
      · rw [if_neg he] at h
        have hn := Option.some.inj h
        refine ⟨[], (c :: rest).takeWhile Char.isDigit,
          fracOf ((c :: rest).drop ((c :: rest).takeWhile Char.isDigit).length),
          by rw [← hn]; simp, Or.inl rfl,
          ⟨?_, fun x hx => mem_takeWhile_p _ _ hx⟩, fracOk_fracOf _⟩
        intro h0
        rw [h0] at he
        exact he rfl

theorem searchNumber_parts : ∀ l n : List Char, searchNumber l = some n → NumParts n := by
  intro l
  induction l with
  | nil => intro n h; cases h
  | cons c rest ih =>
    intro n h
    simp only [searchNumber] at h
    rcases hna : numAt (c :: rest) with _ | m
    · rw [hna] at h
      exact ih n h
    · rw [hna] at h
      have := Option.some.inj h
      rw [← this]
      exact numAt_parts hna

theorem fracOf_canonical {fr : List Char} (h : FracOk fr) : fracOf fr = fr := by
  rcases h with rfl | ⟨fs, rfl, hne, hall⟩
  · rfl
  · unfold fracOf
    simp only [show (('.' : Char) == '.') = true from rfl, if_true]
    rw [takeWhile_all fs hall]
    have h0 : fs.isEmpty = false := by
      cases fs with
      | nil => exact absurd rfl hne
      | cons a as => rfl
    simp [h0]

theorem fracok_head_not_digit {fr : List Char} (hfr : FracOk fr) :
    ∀ c cs, fr = c :: cs → c.isDigit = false := by
  intro c cs hc
  rcases hfr with h0 | ⟨fs, hfs, _⟩
  · rw [h0] at hc
    cases hc
  · rw [hfs] at hc
    injection hc with h1 _
    rw [← h1]
    decide

theorem takeWhile_parts {ds fr : List Char} (hall : ∀ c ∈ ds, c.isDigit = true)
    (hfr : FracOk fr) : (ds ++ fr).takeWhile Char.isDigit = ds :=
  takeWhile_append_eq ds fr hall (fracok_head_not_digit hfr)

theorem numAt_canonical {n : List Char} (h : NumParts n) : numAt n = some n := by
  rcases h with ⟨sgn, ds, fr, rfl, hsgn, ⟨hdne, hdall⟩, hfr⟩
  rcases hsgn with rfl | rfl
  · rcases ds with _ | ⟨dc, ds'⟩
    · exact absurd rfl hdne
    · have hdcne : (dc == '-') = false :=
        beq_eq_false_iff_ne.mpr (isDigit_ne_of (hdall dc (by simp)) (by decide))
      have ht : (dc :: (ds' ++ fr)).takeWhile Char.isDigit = dc :: ds' := by
        have := takeWhile_parts hdall hfr
        simpa using this
      have hd : (dc :: (ds' ++ fr)).drop (dc :: ds').length = fr := by
        have := List.drop_left (dc :: ds') fr
        exact this
      show numAt (dc :: (ds' ++ fr)) = some (dc :: (ds' ++ fr))
      simp only [numAt, hdcne, if_false, Bool.false_eq_true]
      rw [ht, hd]
      simp [fracOf_canonical hfr]
  · have ht : (ds ++ fr).takeWhile Char.isDigit = ds := takeWhile_parts hdall hfr
    have hd : (ds ++ fr).drop ds.length = fr := List.drop_left ds fr
    show numAt ('-' :: (ds ++ fr)) = some ('-' :: (ds ++ fr))
    simp only [numAt, show (('-' : Char) == '-') = true from rfl, if_true]
    rw [ht, hd]
    have h0 : ds.isEmpty = false := by
      cases ds with
      | nil => exact absurd rfl hdne
      | cons a as => rfl
    simp [h0, fracOf_canonical hfr]

theorem searchNumber_canonical {n : List Char} (h : NumParts n) : searchNumber n = some n := by
  have hne : n ≠ [] := by
    rcases h with ⟨sgn, ds, fr, rfl, _, ⟨hdne, _⟩, _⟩
    intro h0
    rcases List.append_eq_nil.mp h0 with ⟨h1, _⟩
    rcases List.append_eq_nil.mp h1 with ⟨_, h3⟩
    exact hdne h3
  rcases n with _ | ⟨c, rest⟩
  · exact absurd rfl hne
  · simp [searchNumber, numAt_canonical h]

theorem parts_chars {n : List Char} (h : NumParts n) :
    ∀ c ∈ n, c.isDigit = true ∨ c = '-' ∨ c = '.' := by
  rcases h with ⟨sgn, ds, fr, rfl, hsgn, ⟨_, hdall⟩, hfr⟩
  intro c hc
  rcases List.mem_append.mp hc with h1 | h2
  · rcases List.mem_append.mp h1 with ha | hb
    · rcases hsgn with rfl | rfl
      · cases ha
      · right; left
        simpa using ha
    · left
      exact hdall c hb
  · rcases hfr with rfl | ⟨fs, rfl, _, hfall⟩
    · cases h2
    · rcases List.mem_cons.mp h2 with rfl | h3
      · right; right; rfl
      · left
        exact hfall c h3

theorem goodchar_space {c : Char} (h : c.isDigit = true ∨ c = '-' ∨ c = '.') :
    pySpace c = false := by
  rcases h with h | rfl | rfl
  · by_contra hs
    rw [Bool.not_eq_false] at hs
    simp only [pySpace, Bool.or_eq_true, beq_iff_eq] at hs
    rcases hs with ((((rfl | rfl) | rfl) | rfl) | rfl) | rfl <;> exact absurd h (by decide)
  · decide
  · decide

theorem goodchar_nbsp {c : Char} (h : c.isDigit = true ∨ c = '-' ∨ c = '.') :
    nbspFix c = c := by
  unfold nbspFix
  have h0 : (c == '\xA0') = false := by
    rcases h with h | rfl | rfl
    · exact beq_eq_false_iff_ne.mpr (isDigit_ne_of h (by decide))
    · decide
    · decide
  simp [h0]

theorem goodchar_keep {c : Char} (h : c.isDigit = true ∨ c = '-' ∨ c = '.') :
    keepCh c = true := by
  unfold keepCh
  rcases h with h | rfl | rfl
  · have h1 : (c == '$') = false := beq_eq_false_iff_ne.mpr (isDigit_ne_of h (by decide))
    have h2 : (c == ',') = false := beq_eq_false_iff_ne.mpr (isDigit_ne_of h (by decide))
    simp [h1, h2]
  · decide
  · decide

theorem goodchar_notU {c : Char} (h : c.isDigit = true ∨ c = '-' ∨ c = '.') :
    c ≠ 'u' ∧ c ≠ 'U' := by
  rcases h with h | rfl | rfl
  · exact ⟨isDigit_ne_of h (by decide), isDigit_ne_of h (by decide)⟩
  · exact ⟨by decide, by decide⟩
  · exact ⟨by decide, by decide⟩

theorem intDotZeros_nofrac {sgn ds : List Char} (hsgn : sgn = [] ∨ sgn = ['-'])
    (hdne : ds ≠ []) (hall : ∀ c ∈ ds, c.isDigit = true) :
    intDotZeros (sgn ++ ds) = false := by
  have htw : ds.takeWhile Char.isDigit = ds := takeWhile_all ds hall
  rcases hsgn with rfl | rfl
  · rcases ds with _ | ⟨dc, ds'⟩
    · exact absurd rfl hdne
    · have hdcne : (dc == '-') = false :=
        beq_eq_false_iff_ne.mpr (isDigit_ne_of (hall dc (by simp)) (by decide))
      show intDotZeros (dc :: ds') = false
      simp only [intDotZeros, hdcne, if_false, Bool.false_eq_true]
      rw [htw, List.drop_length]
      simp
  · show intDotZeros ('-' :: ds) = false
    simp only [intDotZeros, show (('-' : Char) == '-') = true from rfl, if_true]
    rw [htw, List.drop_length]
    simp

theorem cleanForm_collapse (v : Int) : CleanForm (intRepr v) := by
  rcases natRepr_digits v.natAbs with ⟨hne, hdig⟩
  unfold intRepr
  by_cases hv : v < 0
  · rw [if_pos hv]
    exact Or.inr ⟨⟨['-'], natRepr v.natAbs, [], by simp, Or.inr rfl, ⟨hne, hdig⟩,
      Or.inl rfl⟩, intDotZeros_nofrac (Or.inr rfl) hne hdig⟩
  · rw [if_neg hv]
    exact Or.inr ⟨⟨[], natRepr v.natAbs, [], by simp, Or.inl rfl, ⟨hne, hdig⟩,
      Or.inl rfl⟩, intDotZeros_nofrac (Or.inl rfl) hne hdig⟩

theorem negFix_parts {neg : Bool} {num0 : List Char} (h : NumParts num0) :
    NumParts (negFix neg num0) := by
  unfold negFix
  by_cases hc : (neg && !(num0.head? == some '-')) = true
  · rw [if_pos hc]
    rcases h with ⟨sgn, ds, fr, rfl, hsgn, hds, hfr⟩
    rcases hsgn with rfl | rfl
    · exact ⟨['-'], ds, fr, by simp, Or.inr rfl, hds, hfr⟩
    · exfalso
      have hh : (((['-'] ++ ds ++ fr).head? : Option Char) == some '-') = true := rfl
      rw [hh] at hc
      simp at hc
  · rw [if_neg hc]
    exact h

theorem cleanNum_cleanForm (pn : Bool × List Char) : CleanForm (cleanNum pn) := by
  rcases hs : searchNumber pn.2 with _ | num0
  · unfold cleanNum
    rw [hs]
    exact Or.inl rfl
  · have h1 : NumParts (negFix pn.1 num0) := negFix_parts (searchNumber_parts _ _ hs)
    unfold cleanNum
    rw [hs]
    show CleanForm (if intDotZeros (negFix pn.1 num0) = true then
      collapseIntL (negFix pn.1 num0) else negFix pn.1 num0)
    by_cases hz : intDotZeros (negFix pn.1 num0) = true
    · rw [if_pos hz]
      exact cleanForm_collapse _
    · rw [if_neg hz]
      exact Or.inr ⟨h1, by simpa using hz⟩

theorem cleanL_cleanForm (l : List Char) : CleanForm (cleanL l) := cleanNum_cleanForm _

theorem parts_head_ne {n : List Char} (h : NumParts n) (x : Char) (hx : x.isDigit = false)
    (hx2 : x ≠ '-') : n.head? ≠ some x := by
  rcases h with ⟨sgn, ds, fr, rfl, hsgn, ⟨hdne, hdall⟩, _⟩
  rcases hsgn with rfl | rfl
  · rcases ds with _ | ⟨dc, ds'⟩
    · exact absurd rfl hdne
    · intro hh
      simp only [List.nil_append, List.cons_append, List.head?_cons] at hh
      have hdc : dc = x := Option.some.inj hh
      exact isDigit_ne_of (hdall dc (by simp)) hx hdc
  · intro hh
    simp only [List.cons_append, List.head?_cons] at hh
    have : '-' = x := Option.some.inj hh
    exact hx2 this.symm

theorem cleanL_fixed {l : List Char} (h : CleanForm l) : cleanL l = l := by
  rcases h with rfl | ⟨hp, hz⟩
  · rfl
  · have hchars := parts_chars hp
    have e1 : stripChars l = l := strip_noop (fun c hc => goodchar_space (hchars c hc))
    have e2 : l.map nbspFix = l := map_noop l (fun c hc => goodchar_nbsp (hchars c hc))
    have e3 : removeUSD none l = l :=
      removeUSD_noop l (fun c hc => goodchar_notU (hchars c hc)) none
    have e4 : l.filter keepCh = l := filter_noop l (fun c hc => goodchar_keep (hchars c hc))
    have e5 : parenNeg l = (false, l) := by
      have h1 : (l.head? == some '(') = false := by
        rw [beq_eq_false_iff_ne]
        exact parts_head_ne hp '(' (by decide) (by decide)
      unfold parenNeg
      rw [h1]
      simp
    have e6 : searchNumber l = some l := searchNumber_canonical hp
    show cleanNum (parenNeg (stripChars
      ((removeUSD none ((stripChars l).map nbspFix)).filter keepCh))) = l
    rw [e1, e2, e3, e4, e1, e5]
    show cleanNum (false, l) = l
    simp only [cleanNum]
    rw [e6]
    simp [negFix, hz]

/-- C5: clean_amount is idempotent on its own image: for every string x,
cleaning the cleaned value changes nothing, because every clean_amount result
is either empty or a signed decimal numeral without an all-zero fraction, and
such strings pass through every stage of clean_amount unchanged. -/
theorem c5_clean_amount_idempotent (x : String) :
    clean_amount (clean_amount x) = clean_amount x := by
  have h := cleanL_fixed (cleanL_cleanForm x.data)
  exact congrArg String.mk h

theorem parts_specNumForm {n : List Char} (h : NumParts n) : specNumForm n = true := by
  rcases h with ⟨sgn, ds, fr, rfl, hsgn, ⟨hdne, hdall⟩, hfr⟩
  rcases hsgn with rfl | rfl
  · rcases ds with _ | ⟨dc, ds'⟩
    · exact absurd rfl hdne
    · have hdcne : (dc == '-') = false :=
        beq_eq_false_iff_ne.mpr (isDigit_ne_of (hdall dc (by simp)) (by decide))
      have ht : (dc :: (ds' ++ fr)).takeWhile Char.isDigit = dc :: ds' := by
        have := takeWhile_parts hdall hfr
        simpa using this
      have hd : (dc :: (ds' ++ fr)).drop (dc :: ds').length = fr := by
        have := List.drop_left (dc :: ds') fr
        exact this
      show specNumForm (dc :: (ds' ++ fr)) = true
      simp only [specNumForm, hdcne, if_false, Bool.false_eq_true]
      rw [ht, hd]
      rcases hfr with rfl | ⟨fs, rfl, hfne, hfall⟩
      · simp
      · have h1 : fs.isEmpty = false := by
          cases fs with
          | nil => exact absurd rfl hfne
          | cons a as => rfl
        simp [h1, List.all_eq_true.mpr hfall]
  · have ht : (ds ++ fr).takeWhile Char.isDigit = ds := takeWhile_parts hdall hfr
    have hd : (ds ++ fr).drop ds.length = fr := List.drop_left ds fr
    show specNumForm ('-' :: (ds ++ fr)) = true
    simp only [specNumForm, show (('-' : Char) == '-') = true from rfl, if_true]
    rw [ht, hd]
    have h0 : ds.isEmpty = false := by
      cases ds with
      | nil => exact absurd rfl hdne
      | cons a as => rfl
    rcases hfr with rfl | ⟨fs, rfl, hfne, hfall⟩
    · simp [h0]
    · have h1 : fs.isEmpty = false := by
        cases fs with
        | nil => exact absurd rfl hfne
        | cons a as => rfl
      simp [h0, h1, List.all_eq_true.mpr hfall]

/-- C10: every clean_amount result is either the empty string or a string of
the shape optional leading minus, digits, optional decimal point and digits;
in particular it consists only of digits, the minus sign and the decimal
point, so it never contains a dollar sign, comma, USD marker, parenthesis or
whitespace. -/
theorem c10_clean_amount_shape (x : String) :
    clean_amount x = "" ∨
      (specNumForm (clean_amount x).data = true ∧
       (clean_amount x).data.all goodChar = true) := by
  have hdata : (clean_amount x).data = cleanL x.data := rfl
  rcases cleanL_cleanForm x.data with h | ⟨hp, _⟩
  · left
    show String.mk (cleanL x.data) = ""
    rw [h]
  · right
    rw [hdata]
    refine ⟨parts_specNumForm hp, ?_⟩
    rw [List.all_eq_true]
    intro c hc
    rcases parts_chars hp c hc with h | rfl | rfl
    · simp [goodChar, h]
    · simp [goodChar]
    · simp [goodChar]
